import Mathlib

/-
Verification of the document-generator pipeline (src/document-generator/main.py)
against its natural-language specification.

Python strings are modelled as `List Char`; the character-class tests mirror
the ASCII behaviour of Python's `str.isalnum`, `str.isdigit`, `str.strip`.
Machine-level concerns (pandas frames, widget state) are modelled by explicit
data and explicit state passing; code that can raise is modelled with
`Option`/`Except`.
-/

namespace DocGen

/-- Characters of a Python string, as a list. -/
abbrev Str := List Char

/-- Python `str.strip()`: remove leading and trailing whitespace. -/
def pyStrip (s : Str) : Str :=
  ((s.dropWhile Char.isWhitespace).reverse.dropWhile Char.isWhitespace).reverse

/-- The character test of main.py line 155: `c.isalnum() or c == '_'`. -/
def isIdentChar (c : Char) : Bool := c.isAlphanum || c == '_'

/-- A valid identifier head: a letter (alphanumeric non-digit) or underscore. -/
def isIdentHead (c : Char) : Bool := (c.isAlphanum && !c.isDigit) || c == '_'

/-- main.py line 149: `.replace(' ', '_').replace('-', '_')`, character-wise. -/
def underscoreSpaces (c : Char) : Char :=
  if c == ' ' || c == '-' then '_' else c

/-- main.py line 155: keep alphanumerics and underscore, replace the rest. -/
def sanitizeChar (c : Char) : Char := if isIdentChar c then c else '_'

/-- Decimal digit character for `d < 10` (the digits of Python's `str(n)`). -/
def digitChar (d : Nat) : Char :=
  if d = 0 then '0' else if d = 1 then '1' else if d = 2 then '2'
  else if d = 3 then '3' else if d = 4 then '4' else if d = 5 then '5'
  else if d = 6 then '6' else if d = 7 then '7' else if d = 8 then '8' else '9'

/-- Fuel-driven accumulator loop producing the decimal digits of `n`. -/
def natStrGo : Nat → Nat → Str → Str
  | 0, _, acc => acc
  | _, 0, acc => acc
  | fuel + 1, n + 1, acc =>
    natStrGo fuel ((n + 1) / 10) (digitChar ((n + 1) % 10) :: acc)

/-- Python `str(n)` for a natural number. -/
def natStr (n : Nat) : Str := if n = 0 then ['0'] else natStrGo n n []

/--
main.py lines 149-155, the per-label sanitizing step:
strip, replace spaces/hyphens with underscores, prefix an underscore when the
first character is a digit, then replace remaining invalid characters.
Returns `none` when the intermediate string is empty, where `valid_col[0]`
raises `IndexError` in the source.
-/
def sanitizeBase (col : Str) : Option Str :=
  match (pyStrip col).map underscoreSpaces with
  | [] => none
  | c :: rest =>
    some ((if c.isDigit then '_' :: c :: rest else c :: rest).map sanitizeChar)

/-- Lookup in the `seen` dictionary of main.py lines 147-160. -/
def lookupSeen : List (Str × Nat) → Str → Option Nat
  | [], _ => none
  | (k, n) :: rest, key => if k = key then some n else lookupSeen rest key

/-- In-place update `seen[key] = v` for a key already present. -/
def updateSeen : List (Str × Nat) → Str → Nat → List (Str × Nat)
  | [], _, _ => []
  | (k, n) :: rest, key, v =>
    if k = key then (k, v) :: rest else (k, n) :: updateSeen rest key v

/--
main.py lines 146-161, the column loop: sanitize each label, then append a
numeric suffix to repeats of an already-seen sanitized name.  The suffixed
name itself is never inserted into `seen`.  `none` models the `IndexError`
raised on a label whose stripped form is empty, which aborts the whole load.
-/
def validColumnsGo : List (Str × Nat) → List Str → List Str → Option (List Str)
  | _, acc, [] => some acc.reverse
  | seen, acc, col :: rest =>
    match sanitizeBase col with
    | none => none
    | some base =>
      match lookupSeen seen base with
      | some n =>
        validColumnsGo (updateSeen seen base (n + 1))
          ((base ++ '_' :: natStr (n + 1)) :: acc) rest
      | none => validColumnsGo ((base, 0) :: seen) (base :: acc) rest

/-- The identifier sanitizer of `_on_excel_upload` (main.py lines 146-161). -/
def validColumns (cols : List Str) : Option (List Str) :=
  validColumnsGo [] [] cols

/--
Specification-level description of the collision rule: the k-th later
occurrence of an identical sanitized base name receives the suffix `_k`,
while the first occurrence keeps the bare name.
-/
def sanListSpec : List Str → List Str → List Str
  | _, [] => []
  | done, b :: rest =>
    (if List.count b done = 0 then b else b ++ '_' :: natStr (List.count b done))
      :: sanListSpec (done ++ [b]) rest

/-- The sanitized base of every label (placeholder `[]` for a crashing label). -/
def basesOf (cols : List Str) : List Str :=
  cols.map fun c => (sanitizeBase c).getD []

/--
Fuel-driven loop of Python `str.replace`: replace every leftmost,
non-overlapping occurrence of `pat` (nonempty) by `rep`.  One unit of fuel is
spent per examined position, so `s.length` fuel always suffices.
-/
def replaceGo (pat rep : Str) : Nat → Str → Str
  | 0, s => s
  | fuel + 1, s =>
    match s with
    | [] => []
    | c :: rest =>
      if pat.isPrefixOf s then rep ++ replaceGo pat rep fuel (s.drop pat.length)
      else c :: replaceGo pat rep fuel rest

/-- Python `s.replace(pat, rep)` for a nonempty pattern. -/
def pyReplace (s pat rep : Str) : Str :=
  if pat.isEmpty then s else replaceGo pat rep s.length s

/-- The literal token built at main.py line 355: two braces, one space, the
key, one space, two braces. -/
def phTok (k : Str) : Str :=
  '{' :: '{' :: ' ' :: (k ++ [' ', '}', '}'])

/-- The character class kept by the cleanup pass of main.py line 362. -/
def allowedChar (c : Char) : Bool :=
  c.isAlphanum || c == ' ' || c == '_' || c == '-' || c == '.'

/-- main.py line 362: strip every character outside the allowed set. -/
def cleanName (s : Str) : Str := s.filter allowedChar

/-- main.py lines 358-359: append the extension unless already a suffix. -/
def withExt (s ext : Str) : Str := if ext.isSuffixOf s then s else s ++ ext

/--
`_get_output_filename` (main.py lines 338-364): substitute each record entry
into the naming template as a literal replace of the exact token
brace-brace-space-key-space-brace-brace, append the extension, then clean.
The `try` body is total, so the `except` fallback at line 367 is unreachable.
-/
def getOutputFilename (namingTemplate : Str) (rowData : List (Str × Str))
    (ext : Str) : Str :=
  cleanName (withExt
    (rowData.foldl (fun fn kv => pyReplace fn (phTok kv.1) kv.2) namingTemplate)
    ext)

/--
The `except` fallback of main.py line 367: the fixed text `document_`
followed by the value of the record's first key, then the extension.
`none` models the `IndexError` raised by indexing the key list of an
empty record; the `.get` default `'output'` is unreachable because the key
queried always comes from the record's own key list.
-/
def fallbackRowName (rowData : List (Str × Str)) (ext : Str) : Option Str :=
  match rowData with
  | [] => none
  | (_, v) :: _ => some (('d' :: 'o' :: 'c' :: 'u' :: 'm' :: 'e' :: 'n' :: 't' :: '_' :: []) ++ v ++ ext)

/-- A naming pattern, parsed into literal text and placeholder segments. -/
inductive Seg where
  | lit (s : Str)
  | ph (k : Str)
deriving DecidableEq

/-- Render one segment back to the literal pattern text. -/
def renderSeg : Seg → Str
  | Seg.lit s => s
  | Seg.ph k => phTok k

/-- Render a whole segment list to the literal pattern text. -/
def renderSegs (l : List Seg) : Str := (l.map renderSeg).flatten

/-- Substitute value `v` for every placeholder with key `k`. -/
def substSeg (k v : Str) : Seg → Seg
  | Seg.ph j => if j = k then Seg.lit v else Seg.ph j
  | Seg.lit s => Seg.lit s

/-- Apply one record entry to every segment. -/
def applyPair (segs : List Seg) (kv : Str × Str) : List Seg :=
  segs.map (substSeg kv.1 kv.2)

/-- Segment-level substitution of a whole record, in record order. -/
def applyRecord (segs : List Seg) (rec : List (Str × Str)) : List Seg :=
  rec.foldl applyPair segs

/-- A string free of brace characters. -/
abbrev braceFree (s : Str) : Prop := ∀ c ∈ s, c ≠ '{' ∧ c ≠ '}'

/-- A well-formed placeholder key: free of braces and of spaces. -/
abbrev keyOK (k : Str) : Prop := ∀ c ∈ k, c ≠ '{' ∧ c ≠ '}' ∧ c ≠ ' '

/-- The keys of the placeholder segments, in order. -/
def phKeys (segs : List Seg) : List Str :=
  segs.filterMap fun seg =>
    match seg with
    | Seg.ph k => some k
    | Seg.lit _ => none

/-- The literal strings of the literal segments, in order. -/
def litStrs (segs : List Seg) : List Str :=
  segs.filterMap fun seg =>
    match seg with
    | Seg.lit s => some s
    | Seg.ph _ => none

/-- Segment lists whose literal parts are brace-free and keys well-formed. -/
abbrev segsOK (segs : List Seg) : Prop :=
  (∀ s ∈ litStrs segs, braceFree s) ∧ (∀ k ∈ phKeys segs, keyOK k)

/-- Segment lists containing no placeholder. -/
def allLit (segs : List Seg) : Prop := ∀ k, Seg.ph k ∉ segs

/-- A scalar cell value as held in a pandas row dictionary. -/
inductive PyValue where
  | str (s : Str)
  | int (n : Int)
  | bool (b : Bool)
  | pynone
  | nan
deriving DecidableEq

/-- `pd.notna(v)`: false exactly on the missing values None and NaN. -/
def pdNotna : PyValue → Bool
  | PyValue.pynone => false
  | PyValue.nan => false
  | _ => true

/-- Python `str(i)` for an integer. -/
def intStr (i : Int) : Str :=
  if i < 0 then '-' :: natStr i.natAbs else natStr i.toNat

/-- Python `str(v)`: the generic display string of a value. -/
def pyStr : PyValue → Str
  | PyValue.str s => s
  | PyValue.int n => intStr n
  | PyValue.bool true => ['T', 'r', 'u', 'e']
  | PyValue.bool false => ['F', 'a', 'l', 's', 'e']
  | PyValue.pynone => ['N', 'o', 'n', 'e']
  | PyValue.nan => ['n', 'a', 'n']

/--
The record normalizer of main.py lines 398 and 489:
`str(v) if pd.notna(v) else ''` applied to every entry of the row dict.
-/
def normalizeRow (row : List (Str × PyValue)) : List (Str × Str) :=
  row.map fun kv => (kv.1, if pdNotna kv.2 then pyStr kv.2 else [])

/-- The in-memory dataset: column names plus rows of cell values. -/
structure Frame where
  cols : List Str
  rows : List (List PyValue)
deriving DecidableEq

/-- main.py line 139: strip whitespace from every column name in place. -/
def stripFrameCols (f : Frame) : Frame :=
  { f with cols := f.cols.map pyStrip }

/-- `~columns.duplicated()` (main.py line 165): keep first occurrences. -/
def keepMask : List Str → List Str → List Bool
  | _, [] => []
  | seen, c :: rest => (decide (c ∉ seen)) :: keepMask (c :: seen) rest

/-- Select the entries of a list marked `true` by the mask. -/
def applyMask {α : Type} : List Bool → List α → List α
  | b :: bs, x :: xs => if b then x :: applyMask bs xs else applyMask bs xs
  | _, _ => []

/--
`_on_excel_upload` (main.py lines 126-184) as a state transition on the
stored dataset.  `parsed = none` models `pd.read_excel` raising before the
assignment at line 136, so the previous dataset is untouched.  When parsing
succeeds the dataset is replaced at once (lines 136-139, the strip of the
column names mutates the stored frame); a crash inside the sanitizing loop
(line 152) is caught at line 182 and leaves that partially processed frame
in place.  The boolean reports success.
-/
def onExcelUpload (prev : Option Frame) (parsed : Option Frame) :
    Option Frame × Bool :=
  match parsed with
  | none => (prev, false)
  | some df =>
    let df1 := stripFrameCols df
    match validColumns df1.cols with
    | none => (some df1, false)
    | some vcols =>
      let mask := keepMask [] vcols
      (some { cols := applyMask mask vcols,
              rows := df1.rows.map (applyMask mask) }, true)

/-- Outcome of one `_convert_to_pdf` call. -/
inductive ConvResult where
  | converted
  | processTimeout
  | exitFailure
  | fileMissing
deriving DecidableEq

/-- Whether the output file exists after `w` half-second poll steps,
given the half-second delay (if any) at which it appears. -/
def fileAppearedAt (appear : Option Nat) (w : Nat) : Bool :=
  match appear with
  | none => false
  | some a => a ≤ w

/--
The poll loop of main.py lines 328-331, counted in half-second steps:
while the file does not exist and the elapsed wait is below the timeout,
sleep half a second.  `fuel` is the remaining number of permitted steps,
`w` the number of steps already slept; the returned value is the total
number of steps slept.
-/
def waitFrom (appeared : Nat → Bool) : Nat → Nat → Nat
  | 0, w => w
  | fuel + 1, w => if appeared w then w else waitFrom appeared fuel (w + 1)

/--
`_convert_to_pdf` (main.py lines 289-336) as a timing model, with all
durations in half-second units.  `timeoutH` is twice `conversion_timeout`;
`procH` is how long the external process runs; `exit0` is whether it exits
with code 0; `appear` is when (if ever) the PDF appears after the process
ends.  Returns the outcome and the total elapsed time: `subprocess.run` is
bounded by the timeout, and the existence poll afterwards is given its own
fresh budget of `wait_time < self.conversion_timeout`.
-/
def convertToPdf (timeoutH procH : Nat) (exit0 : Bool) (appear : Option Nat) :
    ConvResult × Nat :=
  if timeoutH < procH then (ConvResult.processTimeout, timeoutH)
  else if exit0 = false then (ConvResult.exitFailure, procH)
  else
    let w := waitFrom (fileAppearedAt appear) timeoutH 0
    if fileAppearedAt appear w then (ConvResult.converted, procH + w)
    else (ConvResult.fileMissing, procH + w)

/-- The default `CONVERSION_TIMEOUT` (main.py line 30), in seconds. -/
def defaultConversionTimeout : Nat := 60

/-- The (template, record) pairs of one run, templates outermost
(main.py lines 389-393 and 480-484). -/
def pairList {τ ρ : Type} (templates : List τ) (rows : List ρ) : List (τ × ρ) :=
  templates.flatMap fun t => rows.map fun r => (t, r)

/--
Body of `_preview_documents` (main.py lines 388-437): pairs are processed in
order, each successful pair appends its artifact to the preview area; the
single `try` at line 371 wraps the whole loop, so the first raising pair
ends the run, keeping the artifacts already appended and producing an error.
-/
def previewGo {τ ρ ε : Type} (outcome : τ → ρ → Except Str ε) :
    List (τ × ρ) → List ε → List ε × Option Str
  | [], acc => (acc.reverse, none)
  | p :: rest, acc =>
    match outcome p.1 p.2 with
    | Except.ok e => previewGo outcome rest (e :: acc)
    | Except.error m => (acc.reverse, some m)

/--
`_preview_documents` (main.py lines 369-444): warn and do nothing when no
row is selected, otherwise run the template-by-record loop under one
outer exception handler.
-/
def previewDocuments {τ ρ ε : Type} (templates : List τ) (rows : List ρ)
    (outcome : τ → ρ → Except Str ε) : List ε × Option Str :=
  if rows.isEmpty then ([], none)
  else previewGo outcome (pairList templates rows) []

/-- Body of `_download_documents` (main.py lines 478-510): write one archive
entry per pair, aborting on the first raising pair. -/
def downloadGo {τ ρ ε : Type} (outcome : τ → ρ → Except Str ε) :
    List (τ × ρ) → List ε → Except Str (List ε)
  | [], acc => Except.ok acc.reverse
  | p :: rest, acc =>
    match outcome p.1 p.2 with
    | Except.ok e => downloadGo outcome rest (e :: acc)
    | Except.error m => Except.error m

/--
`_download_documents` (main.py lines 455-523): empty deliverable when no row
is selected; the single `try` at line 463 wraps the whole loop and the
handler at line 520 returns an empty buffer, so any pair failure discards
the entire archive.
-/
def downloadDocuments {τ ρ ε : Type} (templates : List τ) (rows : List ρ)
    (outcome : τ → ρ → Except Str ε) : List ε :=
  if rows.isEmpty then []
  else
    match downloadGo outcome (pairList templates rows) [] with
    | Except.ok entries => entries
    | Except.error _ => []

/- ### Helper lemmas: sanitizer -/

theorem isIdentChar_digitChar (d : Nat) : isIdentChar (digitChar d) = true := by
  unfold digitChar
  split_ifs <;> decide

theorem natStrGo_mem (P : Char → Prop) (hd : ∀ d, P (digitChar d)) :
    ∀ (fuel n : Nat) (acc : Str), (∀ c ∈ acc, P c) → ∀ c ∈ natStrGo fuel n acc, P c := by
  intro fuel
  induction fuel with
  | zero => intro n acc hacc c hc; exact hacc c (by simpa [natStrGo] using hc)
  | succ fuel ih =>
    intro n acc hacc c hc
    match n with
    | 0 => exact hacc c (by simpa [natStrGo] using hc)
    | n + 1 =>
      refine ih _ _ ?_ c (by simpa [natStrGo] using hc)
      intro c' hc'
      rcases List.mem_cons.mp hc' with h | h
      · subst h; exact hd _
      · exact hacc _ h

theorem natStr_mem (P : Char → Prop) (hd : ∀ d, P (digitChar d)) (n : Nat) :
    ∀ c ∈ natStr n, P c := by
  intro c hc
  unfold natStr at hc
  split at hc
  · rw [List.mem_singleton] at hc
    subst hc
    simpa using hd 0
  · exact natStrGo_mem P hd _ _ [] (by simp) c hc

theorem isIdentChar_sanitizeChar (c : Char) : isIdentChar (sanitizeChar c) = true := by
  unfold sanitizeChar
  split
  · assumption
  · decide

theorem sanitizeBase_props (col b : Str) (h : sanitizeBase col = some b) :
    b ≠ [] ∧ (∀ c ∈ b, isIdentChar c = true) ∧ isIdentHead (b.headD ' ') = true := by
  unfold sanitizeBase at h
  cases hm : (pyStrip col).map underscoreSpaces with
  | nil => rw [hm] at h; exact absurd h (by simp)
  | cons c rest =>
    rw [hm] at h
    simp only [Option.some.injEq] at h
    by_cases hd : c.isDigit
    · rw [if_pos hd] at h
      refine ⟨by simp [← h], ?_, ?_⟩
      · intro x hx
        rw [← h] at hx
        obtain ⟨y, _, hy⟩ := List.mem_map.mp hx
        rw [← hy]; exact isIdentChar_sanitizeChar y
      · rw [← h]
        simp only [List.map_cons, List.headD_cons]
        decide
    · rw [if_neg hd] at h
      refine ⟨by simp [← h], ?_, ?_⟩
      · intro x hx
        rw [← h] at hx
        obtain ⟨y, _, hy⟩ := List.mem_map.mp hx
        rw [← hy]; exact isIdentChar_sanitizeChar y
      · rw [← h]
        simp only [List.map_cons, List.headD_cons]
        unfold sanitizeChar
        split
        · rename_i hic
          unfold isIdentChar at hic
          unfold isIdentHead
          rcases Bool.or_eq_true_iff.mp hic with ha | ha
          · simp [ha, Bool.eq_false_iff.mpr hd]
          · simp [ha]
        · decide

theorem sanitizeBase_isSome (col : Str) (h : pyStrip col ≠ []) :
    ∃ b, sanitizeBase col = some b := by
  unfold sanitizeBase
  cases hm : (pyStrip col).map underscoreSpaces with
  | nil => exact absurd (List.map_eq_nil_iff.mp hm) h
  | cons c rest => exact ⟨_, rfl⟩

theorem lookupSeen_updateSeen_self (seen : List (Str × Nat)) (key : Str) (v n : Nat)
    (h : lookupSeen seen key = some n) :
    lookupSeen (updateSeen seen key v) key = some v := by
  induction seen with
  | nil => exact absurd h (by simp [lookupSeen])
  | cons kv seen ih =>
    obtain ⟨k, m⟩ := kv
    by_cases hk : k = key
    · simp [updateSeen, lookupSeen, hk]
    · simp only [updateSeen, lookupSeen, if_neg hk] at h ⊢
      exact ih h

theorem lookupSeen_updateSeen_other (seen : List (Str × Nat)) (key b : Str) (v : Nat)
    (h : b ≠ key) :
    lookupSeen (updateSeen seen key v) b = lookupSeen seen b := by
  induction seen with
  | nil => simp [updateSeen]
  | cons kv seen ih =>
    obtain ⟨k, m⟩ := kv
    by_cases hk : k = key
    · subst hk
      have hkb : ¬ (k = b) := fun hh => h hh.symm
      simp [updateSeen, lookupSeen, hkb]
    · simp only [updateSeen, if_neg hk, lookupSeen]
      by_cases hb : k = b
      · simp [hb]
      · simp [hb, ih]

theorem validColumnsGo_spec :
    ∀ (rest done : List Str) (seen : List (Str × Nat)) (acc : List Str),
      (∀ col ∈ rest, pyStrip col ≠ []) →
      (∀ b, lookupSeen seen b =
        if List.count b done = 0 then none else some (List.count b done - 1)) →
      validColumnsGo seen acc rest = some (acc.reverse ++ sanListSpec done (basesOf rest)) := by
  intro rest
  induction rest with
  | nil => intro done seen acc _ _; simp [validColumnsGo, basesOf, sanListSpec]
  | cons col rest ih =>
    intro done seen acc hstrip hinv
    obtain ⟨b, hb⟩ := sanitizeBase_isSome col (hstrip col (by simp))
    have hbase : basesOf (col :: rest) = b :: basesOf rest := by
      simp [basesOf, hb]
    rw [hbase]
    have hlook := hinv b
    simp only [validColumnsGo, hb]
    cases hcount : List.count b done with
    | zero =>
      rw [hcount] at hlook
      rw [if_pos rfl] at hlook
      have hinv' : ∀ b', lookupSeen ((b, 0) :: seen) b' =
          if List.count b' (done ++ [b]) = 0 then none
          else some (List.count b' (done ++ [b]) - 1) := by
        intro b'
        by_cases hb' : b = b'
        · subst hb'
          simp [lookupSeen, List.count_append, hcount]
        · have hzero : List.count b' [b] = 0 := by
            rw [List.count_eq_zero]
            simp
            exact fun hh => hb' hh.symm
          simp only [lookupSeen, if_neg hb', List.count_append, hzero, Nat.add_zero]
          exact hinv b'
      simp only [hlook]
      rw [ih (done ++ [b]) ((b, 0) :: seen) (b :: acc)
        (fun c hc => hstrip c (by simp [hc])) hinv']
      simp [sanListSpec, hcount]
    | succ n =>
      rw [hcount] at hlook
      rw [if_neg (Nat.succ_ne_zero n)] at hlook
      simp only [Nat.succ_sub_one] at hlook
      have hinv' : ∀ b', lookupSeen (updateSeen seen b (n + 1)) b' =
          if List.count b' (done ++ [b]) = 0 then none
          else some (List.count b' (done ++ [b]) - 1) := by
        intro b'
        by_cases hb' : b' = b
        · subst hb'
          rw [lookupSeen_updateSeen_self seen b' (n + 1) n hlook]
          simp [List.count_append, hcount]
        · rw [lookupSeen_updateSeen_other seen b b' (n + 1) hb']
          have hzero : List.count b' [b] = 0 := by
            rw [List.count_eq_zero]
            simp
            exact hb'
          simp only [List.count_append, hzero, Nat.add_zero]
          exact hinv b'
      simp only [hlook]
      rw [ih (done ++ [b]) (updateSeen seen b (n + 1)) ((b ++ '_' :: natStr (n + 1)) :: acc)
        (fun c hc => hstrip c (by simp [hc])) hinv']
      simp [sanListSpec, hcount]

theorem validColumns_eq_spec (cols : List Str)
    (h : ∀ col ∈ cols, pyStrip col ≠ []) :
    validColumns cols = some (sanListSpec [] (basesOf cols)) := by
  have := validColumnsGo_spec cols [] [] [] h (by intro b; simp [lookupSeen])
  simpa [validColumns] using this

theorem sanListSpec_length :
    ∀ (bases done : List Str), (sanListSpec done bases).length = bases.length := by
  intro bases
  induction bases with
  | nil => intro done; simp [sanListSpec]
  | cons b rest ih => intro done; simp [sanListSpec, ih]

theorem sanListSpec_shape :
    ∀ (bases done : List Str) (name : Str), name ∈ sanListSpec done bases →
      name ∈ bases ∨ ∃ b k, b ∈ bases ∧ name = b ++ '_' :: natStr k := by
  intro bases
  induction bases with
  | nil => intro done name h; exact absurd h (by simp [sanListSpec])
  | cons b rest ih =>
    intro done name hmem
    rcases List.mem_cons.mp hmem with h | h
    · by_cases hc : List.count b done = 0
      · rw [if_pos hc] at h
        exact Or.inl (by simp [h])
      · rw [if_neg hc] at h
        exact Or.inr ⟨b, List.count b done, by simp, h⟩
    · rcases ih (done ++ [b]) name h with h' | h'
      · exact Or.inl (by simp [h'])
      · obtain ⟨b', k, hb', hn⟩ := h'
        exact Or.inr ⟨b', k, by simp [hb'], hn⟩

theorem dropWhile_eq_self_of_all (p : Char → Bool) (s : Str)
    (h : ∀ c ∈ s, p c = false) : s.dropWhile p = s := by
  cases s with
  | nil => rfl
  | cons c t => simp [List.dropWhile_cons, h c (by simp)]

theorem pyStrip_eq_self (s : Str) (h : ∀ c ∈ s, c.isWhitespace = false) :
    pyStrip s = s := by
  unfold pyStrip
  rw [dropWhile_eq_self_of_all _ s h]
  rw [dropWhile_eq_self_of_all _ s.reverse (fun c hc => h c (List.mem_reverse.mp hc))]
  exact List.reverse_reverse s

theorem identChar_not_ws (c : Char) (h : isIdentChar c = true) :
    c.isWhitespace = false := by
  cases hw : c.isWhitespace
  · rfl
  · exfalso
    have hw' : c = ' ' ∨ c = '\t' ∨ c = '\r' ∨ c = '\n' := by
      have hx := hw
      simp only [Char.isWhitespace, Bool.or_eq_true, decide_eq_true_eq] at hx
      tauto
    rcases hw' with h1 | h1 | h1 | h1 <;> subst h1 <;> exact absurd h (by decide)

theorem identChar_underscoreSpaces (c : Char) (h : isIdentChar c = true) :
    underscoreSpaces c = c := by
  unfold underscoreSpaces
  have : (c == ' ' || c == '-') = false := by
    cases he : (c == ' ' || c == '-')
    · rfl
    · exfalso
      simp only [Bool.or_eq_true, beq_iff_eq] at he
      rcases he with h1 | h1 <;> subst h1 <;> exact absurd h (by decide)
  rw [this]
  rfl

theorem identHead_not_digit (c : Char) (h : isIdentHead c = true) :
    c.isDigit = false := by
  unfold isIdentHead at h
  rcases Bool.or_eq_true_iff.mp h with h1 | h1
  · rw [Bool.and_eq_true] at h1
    cases hd : c.isDigit
    · rfl
    · rw [hd] at h1
      exact absurd h1.2 (by decide)
  · rw [beq_iff_eq] at h1
    subst h1
    decide

theorem identChar_sanitizeChar_fixed (c : Char) (h : isIdentChar c = true) :
    sanitizeChar c = c := by
  unfold sanitizeChar
  rw [if_pos h]

theorem sanitizeBase_fixed (name : Str) (h1 : name ≠ [])
    (h2 : ∀ c ∈ name, isIdentChar c = true)
    (h3 : isIdentHead (name.headD ' ') = true) :
    sanitizeBase name = some name := by
  obtain ⟨c0, t, rfl⟩ := List.exists_cons_of_ne_nil h1
  have hstrip : pyStrip (c0 :: t) = c0 :: t :=
    pyStrip_eq_self _ (fun c hc => identChar_not_ws c (h2 c hc))
  have hmap : (c0 :: t).map underscoreSpaces = c0 :: t :=
    (List.map_congr_left fun c hc => identChar_underscoreSpaces c (h2 c hc)).trans
      (List.map_id _)
  have hdig : c0.isDigit = false := by
    simp only [List.headD_cons] at h3
    exact identHead_not_digit c0 h3
  unfold sanitizeBase
  rw [hstrip, hmap]
  simp only [hdig, Bool.false_eq_true, if_false]
  rw [(List.map_congr_left fun c hc =>
    identChar_sanitizeChar_fixed c (h2 c hc)).trans (List.map_id _)]

theorem sanListSpec_of_disjoint :
    ∀ (rest done : List Str), (∀ b ∈ rest, b ∉ done) → rest.Nodup →
      sanListSpec done rest = rest := by
  intro rest
  induction rest with
  | nil => intro done _ _; rfl
  | cons b rest ih =>
    intro done hdisj hnd
    have hzero : List.count b done = 0 :=
      List.count_eq_zero.mpr (hdisj b (by simp))
    have hstep : sanListSpec done (b :: rest)
        = b :: sanListSpec (done ++ [b]) rest := by
      simp [sanListSpec, hzero]
    rw [hstep]
    congr 1
    apply ih (done ++ [b]) ?_ (List.Nodup.of_cons hnd)
    intro b' hb'
    simp only [List.mem_append, List.mem_singleton]
    rintro (hd | hd)
    · exact hdisj b' (by simp [hb']) hd
    · subst hd
      exact (List.nodup_cons.mp hnd).1 hb'

theorem suffixedName_props (b : Str) (hb : b ≠ [])
    (hchars : ∀ c ∈ b, isIdentChar c = true)
    (hhead : isIdentHead (b.headD ' ') = true) (k : Nat) :
    (b ++ '_' :: natStr k) ≠ [] ∧
    (∀ c ∈ b ++ '_' :: natStr k, isIdentChar c = true) ∧
    isIdentHead ((b ++ '_' :: natStr k).headD ' ') = true := by
  obtain ⟨c0, t, rfl⟩ := List.exists_cons_of_ne_nil hb
  refine ⟨by simp, ?_, by simpa using hhead⟩
  intro c hc
  simp only [List.cons_append, List.mem_cons, List.mem_append] at hc
  rcases hc with h | h | h | h
  · exact hchars c (by simp [h])
  · exact hchars c (by simp [h])
  · subst h; decide
  · exact natStr_mem (fun c => isIdentChar c = true) isIdentChar_digitChar k c h

/- ### Helper lemmas: literal replacement -/

theorem replaceGo_nil (pat rep : Str) (fuel : Nat) :
    replaceGo pat rep fuel [] = [] := by
  cases fuel <;> rfl

theorem replaceGo_congr (pat rep : Str) (hpat : pat ≠ []) :
    ∀ (f1 f2 : Nat) (s : Str), s.length ≤ f1 → s.length ≤ f2 →
      replaceGo pat rep f1 s = replaceGo pat rep f2 s := by
  intro f1
  induction f1 with
  | zero =>
    intro f2 s h1 _
    have hs : s = [] := List.eq_nil_of_length_eq_zero (Nat.le_zero.mp h1)
    subst hs
    rw [replaceGo_nil, replaceGo_nil]
  | succ f1 ih =>
    intro f2 s h1 h2
    match s with
    | [] => rw [replaceGo_nil, replaceGo_nil]
    | c :: rest =>
      match f2 with
      | 0 => exact absurd h2 (by simp)
      | f2 + 1 =>
        have hlp : 1 ≤ pat.length := List.length_pos.mpr hpat
        simp only [replaceGo]
        cases hp : pat.isPrefixOf (c :: rest)
        · simp only [Bool.false_eq_true, if_false]
          have hr1 : rest.length ≤ f1 := by
            simp only [List.length_cons] at h1
            omega
          have hr2 : rest.length ≤ f2 := by
            simp only [List.length_cons] at h2
            omega
          rw [ih f2 rest hr1 hr2]
        · simp only [if_true]
          have hd1 : ((c :: rest).drop pat.length).length ≤ f1 := by
            simp only [List.length_drop, List.length_cons] at *
            omega
          have hd2 : ((c :: rest).drop pat.length).length ≤ f2 := by
            simp only [List.length_drop, List.length_cons] at *
            omega
          rw [ih f2 _ hd1 hd2]

theorem pyReplace_nil (pat rep : Str) : pyReplace [] pat rep = [] := by
  unfold pyReplace
  split
  · rfl
  · exact replaceGo_nil pat rep 0

theorem isEmpty_false_of_ne_nil (pat : Str) (h : pat ≠ []) :
    pat.isEmpty = false := by
  cases pat
  · exact absurd rfl h
  · rfl

theorem pyReplace_cons_neg (pat rep : Str) (c : Char) (t : Str)
    (hpat : pat ≠ []) (h : pat.isPrefixOf (c :: t) = false) :
    pyReplace (c :: t) pat rep = c :: pyReplace t pat rep := by
  unfold pyReplace
  rw [isEmpty_false_of_ne_nil pat hpat]
  simp only [Bool.false_eq_true, if_false, List.length_cons, replaceGo, h]

theorem pyReplace_head_match (pat rep t : Str) (hpat : pat ≠ []) :
    pyReplace (pat ++ t) pat rep = rep ++ pyReplace t pat rep := by
  obtain ⟨c, pr, rfl⟩ := List.exists_cons_of_ne_nil hpat
  unfold pyReplace
  rw [isEmpty_false_of_ne_nil _ (by simp)]
  simp only [Bool.false_eq_true, if_false]
  have hlen : ((c :: pr) ++ t).length = ((c :: pr) ++ t).length - 1 + 1 := by
    simp
  rw [hlen]
  simp only [List.cons_append, replaceGo]
  have hpre : (c :: pr).isPrefixOf (c :: (pr ++ t)) = true := by
    rw [List.isPrefixOf_iff_prefix]
    exact (List.prefix_append (c :: pr) t).trans (by simp)
  rw [hpre]
  simp only [if_true]
  congr 1
  have hdrop : (c :: (pr ++ t)).drop (c :: pr).length = t := by
    simp
  rw [hdrop]
  apply replaceGo_congr _ _ (by simp)
  · simp
  · exact le_rfl

theorem pyReplace_append_free (pat rep : Str) (h0 : Char) (pt : Str)
    (hpat : pat = h0 :: pt) :
    ∀ (a t : Str), (∀ c ∈ a, c ≠ h0) →
      pyReplace (a ++ t) pat rep = a ++ pyReplace t pat rep := by
  intro a
  induction a with
  | nil => intro t _; simp
  | cons c a ih =>
    intro t hfree
    have hnp : pat.isPrefixOf (c :: (a ++ t)) = false := by
      subst hpat
      cases hp : (h0 :: pt).isPrefixOf (c :: (a ++ t))
      · rfl
      · exfalso
        rw [List.isPrefixOf_iff_prefix] at hp
        have := (List.cons_prefix_cons.mp hp).1
        exact hfree c (by simp) this.symm
    rw [List.cons_append,
      pyReplace_cons_neg pat rep c (a ++ t) (by simp [hpat]) hnp,
      ih t (fun x hx => hfree x (by simp [hx]))]
    rfl

theorem not_prefixOf_of_head_ne (c d : Char) (pt s : Str) (h : c ≠ d) :
    (c :: pt).isPrefixOf (d :: s) = false := by
  cases hp : (c :: pt).isPrefixOf (d :: s)
  · rfl
  · exfalso
    rw [List.isPrefixOf_iff_prefix] at hp
    exact h (List.cons_prefix_cons.mp hp).1

theorem key_eq_of_prefix_aux :
    ∀ (k k' r r' : Str), (∀ c ∈ k, c ≠ ' ') → (∀ c ∈ k', c ≠ ' ') →
      (k ++ ' ' :: r) <+: (k' ++ ' ' :: r') → k = k' := by
  intro k
  induction k with
  | nil =>
    intro k' r r' _ hk' h
    cases k' with
    | nil => rfl
    | cons c t =>
      exfalso
      simp only [List.nil_append, List.cons_append] at h
      exact hk' c (by simp) (List.cons_prefix_cons.mp h).1.symm
  | cons c k ih =>
    intro k' r r' hk hk' h
    cases k' with
    | nil =>
      exfalso
      simp only [List.cons_append, List.nil_append] at h
      exact hk c (by simp) (List.cons_prefix_cons.mp h).1
    | cons c' k'' =>
      simp only [List.cons_append] at h
      obtain ⟨he, hrest⟩ := List.cons_prefix_cons.mp h
      rw [he, ih k'' r r' (fun x hx => hk x (by simp [hx]))
        (fun x hx => hk' x (by simp [hx])) hrest]

theorem phTok_ne_nil (k : Str) : phTok k ≠ [] := by simp [phTok]

theorem pyReplace_phTok_block (k k' v : Str) (hkk : k' ≠ k)
    (hk : keyOK k) (hk' : keyOK k') (t : Str) :
    pyReplace (phTok k' ++ t) (phTok k) v = phTok k' ++ pyReplace t (phTok k) v := by
  have hshape : phTok k' ++ t
      = '{' :: '{' :: ' ' :: (k' ++ (' ' :: '}' :: '}' :: t)) := by
    simp [phTok]
  rw [hshape]
  have hnp0 : (phTok k).isPrefixOf
      ('{' :: '{' :: ' ' :: (k' ++ (' ' :: '}' :: '}' :: t))) = false := by
    cases hp : (phTok k).isPrefixOf
        ('{' :: '{' :: ' ' :: (k' ++ (' ' :: '}' :: '}' :: t)))
    · rfl
    · exfalso
      rw [List.isPrefixOf_iff_prefix] at hp
      unfold phTok at hp
      have h1 := (List.cons_prefix_cons.mp hp).2
      have h2 := (List.cons_prefix_cons.mp h1).2
      have h3 := (List.cons_prefix_cons.mp h2).2
      have hkeq : k = k' := by
        have hsp : ∀ c ∈ k, c ≠ ' ' := fun c hc => (hk c hc).2.2
        have hsp' : ∀ c ∈ k', c ≠ ' ' := fun c hc => (hk' c hc).2.2
        exact key_eq_of_prefix_aux k k' ['}', '}'] ('}' :: '}' :: t) hsp hsp'
          (by simpa using h3)
      exact hkk hkeq.symm
  rw [pyReplace_cons_neg _ _ _ _ (phTok_ne_nil k) hnp0]
  have hnp1 : (phTok k).isPrefixOf
      ('{' :: ' ' :: (k' ++ (' ' :: '}' :: '}' :: t))) = false := by
    cases hp : (phTok k).isPrefixOf ('{' :: ' ' :: (k' ++ (' ' :: '}' :: '}' :: t)))
    · rfl
    · exfalso
      rw [List.isPrefixOf_iff_prefix] at hp
      unfold phTok at hp
      have h1 := (List.cons_prefix_cons.mp hp).2
      exact absurd (List.cons_prefix_cons.mp h1).1 (by decide)
  rw [pyReplace_cons_neg _ _ _ _ (phTok_ne_nil k) hnp1]
  rw [pyReplace_cons_neg _ _ _ _ (phTok_ne_nil k)
    (not_prefixOf_of_head_ne _ _ _ _ (by decide : ('{' : Char) ≠ ' '))]
  rw [pyReplace_append_free (phTok k) v '{' ('{' :: ' ' :: (k ++ [' ', '}', '}']))
    rfl k' (' ' :: '}' :: '}' :: t) (fun c hc => (hk' c hc).1)]
  rw [pyReplace_cons_neg _ _ _ _ (phTok_ne_nil k)
    (not_prefixOf_of_head_ne _ _ _ _ (by decide : ('{' : Char) ≠ ' '))]
  rw [pyReplace_cons_neg _ _ _ _ (phTok_ne_nil k)
    (not_prefixOf_of_head_ne _ _ _ _ (by decide : ('{' : Char) ≠ '}'))]
  rw [pyReplace_cons_neg _ _ _ _ (phTok_ne_nil k)
    (not_prefixOf_of_head_ne _ _ _ _ (by decide : ('{' : Char) ≠ '}'))]
  simp [phTok]

theorem renderSegs_nil : renderSegs [] = [] := rfl

theorem renderSegs_cons (seg : Seg) (rest : List Seg) :
    renderSegs (seg :: rest) = renderSeg seg ++ renderSegs rest := by
  simp [renderSegs]

theorem litStrs_cons_lit (s : Str) (rest : List Seg) :
    litStrs (Seg.lit s :: rest) = s :: litStrs rest := by
  simp [litStrs, List.filterMap_cons]

theorem litStrs_cons_ph (k : Str) (rest : List Seg) :
    litStrs (Seg.ph k :: rest) = litStrs rest := by
  simp [litStrs, List.filterMap_cons]

theorem phKeys_cons_lit (s : Str) (rest : List Seg) :
    phKeys (Seg.lit s :: rest) = phKeys rest := by
  simp [phKeys, List.filterMap_cons]

theorem phKeys_cons_ph (k : Str) (rest : List Seg) :
    phKeys (Seg.ph k :: rest) = k :: phKeys rest := by
  simp [phKeys, List.filterMap_cons]

theorem segsOK_tail (seg : Seg) (rest : List Seg) (h : segsOK (seg :: rest)) :
    segsOK rest := by
  obtain ⟨h1, h2⟩ := h
  constructor
  · intro s hs
    apply h1
    cases seg with
    | lit s' => rw [litStrs_cons_lit]; exact List.mem_cons_of_mem _ hs
    | ph k' => rw [litStrs_cons_ph]; exact hs
  · intro kk hkk
    apply h2
    cases seg with
    | lit s' => rw [phKeys_cons_lit]; exact hkk
    | ph k' => rw [phKeys_cons_ph]; exact List.mem_cons_of_mem _ hkk

theorem pyReplace_renderSegs (k v : Str) (hk : keyOK k) :
    ∀ segs : List Seg, segsOK segs →
      pyReplace (renderSegs segs) (phTok k) v
        = renderSegs (applyPair segs (k, v)) := by
  intro segs
  induction segs with
  | nil => intro _; simp [renderSegs, applyPair, pyReplace_nil]
  | cons seg rest ih =>
    intro hok
    have hokr := segsOK_tail seg rest hok
    cases seg with
    | lit s =>
      have hfree : ∀ c ∈ s, c ≠ '{' := by
        intro c hc
        exact (hok.1 s (by simp [litStrs]) c hc).1
      rw [renderSegs_cons]
      simp only [renderSeg]
      rw [pyReplace_append_free (phTok k) v '{'
        ('{' :: ' ' :: (k ++ [' ', '}', '}'])) rfl s (renderSegs rest) hfree]
      rw [ih hokr]
      simp [applyPair, substSeg, renderSegs_cons, renderSeg]
    | ph j =>
      by_cases hj : j = k
      · subst hj
        rw [renderSegs_cons]
        simp only [renderSeg]
        rw [pyReplace_head_match (phTok j) v (renderSegs rest) (phTok_ne_nil j)]
        rw [ih hokr]
        simp [applyPair, substSeg, renderSegs_cons, renderSeg]
      · have hkj : keyOK j := hok.2 j (by simp [phKeys])
        rw [renderSegs_cons]
        simp only [renderSeg]
        rw [pyReplace_phTok_block k j v hj hk hkj (renderSegs rest)]
        rw [ih hokr]
        simp [applyPair, substSeg, hj, renderSegs_cons, renderSeg]

theorem segsOK_applyPair (segs : List Seg) (k v : Str) (h : segsOK segs)
    (hv : braceFree v) : segsOK (applyPair segs (k, v)) := by
  induction segs with
  | nil => exact ⟨by simp [applyPair, litStrs], by simp [applyPair, phKeys]⟩
  | cons seg rest ih =>
    have hr := ih (segsOK_tail seg rest h)
    have hstep : applyPair (seg :: rest) (k, v)
        = substSeg k v seg :: applyPair rest (k, v) := by
      simp [applyPair]
    rw [hstep]
    cases seg with
    | lit s =>
      refine ⟨?_, ?_⟩
      · intro s' hs'
        rw [substSeg, litStrs_cons_lit] at hs'
        rcases List.mem_cons.mp hs' with h' | h'
        · subst h'; exact h.1 s' (by rw [litStrs_cons_lit]; simp)
        · exact hr.1 s' h'
      · intro kk hkk
        rw [substSeg, phKeys_cons_lit] at hkk
        exact hr.2 kk hkk
    | ph j =>
      by_cases hj : j = k
      · refine ⟨?_, ?_⟩
        · intro s' hs'
          rw [substSeg, if_pos hj, litStrs_cons_lit] at hs'
          rcases List.mem_cons.mp hs' with h' | h'
          · subst h'; exact hv
          · exact hr.1 s' h'
        · intro kk hkk
          rw [substSeg, if_pos hj, phKeys_cons_lit] at hkk
          exact hr.2 kk hkk
      · refine ⟨?_, ?_⟩
        · intro s' hs'
          rw [substSeg, if_neg hj, litStrs_cons_ph] at hs'
          exact hr.1 s' hs'
        · intro kk hkk
          rw [substSeg, if_neg hj, phKeys_cons_ph] at hkk
          rcases List.mem_cons.mp hkk with h' | h'
          · subst h'; exact h.2 kk (by rw [phKeys_cons_ph]; simp)
          · exact hr.2 kk h'

theorem segsOK_applyRecord (segs : List Seg) (rec : List (Str × Str))
    (h : segsOK segs) (hrec : ∀ kv ∈ rec, keyOK kv.1 ∧ braceFree kv.2) :
    segsOK (applyRecord segs rec) := by
  induction rec generalizing segs with
  | nil => exact h
  | cons kv rec ih =>
    have hstep : applyRecord segs (kv :: rec) = applyRecord (applyPair segs kv) rec := by
      simp [applyRecord]
    rw [hstep]
    exact ih (applyPair segs kv)
      (segsOK_applyPair segs kv.1 kv.2 h (hrec kv (by simp)).2)
      (fun kv' hkv' => hrec kv' (by simp [hkv']))

theorem foldl_pyReplace_renderSegs (rec : List (Str × Str)) :
    ∀ segs : List Seg, segsOK segs →
      (∀ kv ∈ rec, keyOK kv.1 ∧ braceFree kv.2) →
      rec.foldl (fun fn kv => pyReplace fn (phTok kv.1) kv.2) (renderSegs segs)
        = renderSegs (applyRecord segs rec) := by
  induction rec with
  | nil => intro segs _ _; simp [applyRecord]
  | cons kv rec ih =>
    intro segs hok hrec
    have hkv := hrec kv (by simp)
    simp only [List.foldl_cons]
    rw [pyReplace_renderSegs kv.1 kv.2 hkv.1 segs hok]
    have hstep : applyRecord segs (kv :: rec) = applyRecord (applyPair segs kv) rec := by
      simp [applyRecord]
    rw [hstep]
    exact ih (applyPair segs kv)
      (segsOK_applyPair segs kv.1 kv.2 hok hkv.2)
      (fun kv' hkv' => hrec kv' (by simp [hkv']))

theorem mem_phKeys (segs : List Seg) (k : Str) :
    k ∈ phKeys segs ↔ Seg.ph k ∈ segs := by
  induction segs with
  | nil => simp [phKeys]
  | cons seg rest ih =>
    cases seg with
    | lit s =>
      rw [phKeys_cons_lit, ih]
      simp
    | ph j =>
      rw [phKeys_cons_ph]
      simp [ih]

theorem phKeys_applyPair (segs : List Seg) (k0 v : Str) :
    phKeys (applyPair segs (k0, v))
      = (phKeys segs).filter (fun j => !(j == k0)) := by
  induction segs with
  | nil => rfl
  | cons seg rest ih =>
    have hstep : applyPair (seg :: rest) (k0, v)
        = substSeg k0 v seg :: applyPair rest (k0, v) := by
      simp [applyPair]
    rw [hstep]
    cases seg with
    | lit s =>
      rw [substSeg, phKeys_cons_lit, phKeys_cons_lit, ih]
    | ph j =>
      by_cases hj : j = k0
      · rw [substSeg, if_pos hj, phKeys_cons_lit, phKeys_cons_ph, ih]
        rw [List.filter_cons]
        simp [hj]
      · rw [substSeg, if_neg hj, phKeys_cons_ph, phKeys_cons_ph, ih]
        rw [List.filter_cons]
        simp [hj]

theorem applyRecord_phKeys_nil (rec : List (Str × Str)) :
    ∀ segs : List Seg, (∀ k ∈ phKeys segs, k ∈ rec.map Prod.fst) →
      phKeys (applyRecord segs rec) = [] := by
  induction rec with
  | nil =>
    intro segs h
    exact List.eq_nil_iff_forall_not_mem.mpr
      (fun k hk => by simpa using h k hk)
  | cons kv rec ih =>
    intro segs h
    have hstep : applyRecord segs (kv :: rec)
        = applyRecord (applyPair segs kv) rec := by
      simp [applyRecord]
    rw [hstep]
    apply ih
    intro k hk
    obtain ⟨kv1, kv2⟩ := kv
    rw [phKeys_applyPair, List.mem_filter] at hk
    have hne : k ≠ kv1 := by
      have := hk.2
      simp only [Bool.not_eq_true', beq_eq_false_iff_ne, ne_eq] at this
      exact this
    have := h k hk.1
    simp only [List.map_cons, List.mem_cons] at this
    rcases this with h' | h'
    · exact absurd h' hne
    · exact h'

theorem applyRecord_allLit (segs : List Seg) (rec : List (Str × Str))
    (h : ∀ k ∈ phKeys segs, k ∈ rec.map Prod.fst) :
    allLit (applyRecord segs rec) := by
  intro k hk
  have := applyRecord_phKeys_nil rec segs h
  rw [← mem_phKeys] at hk
  rw [this] at hk
  exact absurd hk (by simp)

theorem braceFree_append (a b : Str) (ha : braceFree a) (hb : braceFree b) :
    braceFree (a ++ b) := by
  intro c hc
  rcases List.mem_append.mp hc with h | h
  · exact ha c h
  · exact hb c h

theorem renderSegs_braceFree (segs : List Seg) (hall : allLit segs)
    (hlits : ∀ s ∈ litStrs segs, braceFree s) :
    braceFree (renderSegs segs) := by
  induction segs with
  | nil => intro c hc; exact absurd hc (by simp [renderSegs])
  | cons seg rest ih =>
    cases seg with
    | ph j => exact absurd (by simp : Seg.ph j ∈ Seg.ph j :: rest) (hall j)
    | lit s =>
      rw [renderSegs_cons]
      apply braceFree_append
      · exact hlits s (by rw [litStrs_cons_lit]; simp)
      · exact ih (fun k hmem => hall k (List.mem_cons_of_mem _ hmem))
          (fun s' hs' => hlits s' (by rw [litStrs_cons_lit]; simp [hs']))

/- ### Helper lemmas: filename cleanup, orchestrator, converter -/

theorem cleanName_append (a b : Str) :
    cleanName (a ++ b) = cleanName a ++ cleanName b :=
  List.filter_append a b

theorem cleanName_of_allowed (s : Str) (h : ∀ c ∈ s, allowedChar c = true) :
    cleanName s = s :=
  List.filter_eq_self.mpr h

theorem length_pairList {τ ρ : Type} (ts : List τ) (rs : List ρ) :
    (pairList ts rs).length = ts.length * rs.length := by
  induction ts with
  | nil => simp [pairList]
  | cons t ts ih =>
    simp only [pairList, List.flatMap_cons] at *
    simp [ih, Nat.succ_mul, Nat.add_comm]

theorem pairList_nil_rows {τ ρ : Type} (ts : List τ) :
    pairList ts ([] : List ρ) = [] := by
  induction ts with
  | nil => rfl
  | cons t ts ih => simp [pairList] at *

theorem mem_pairList {τ ρ : Type} (ts : List τ) (rs : List ρ) (p : τ × ρ)
    (h : p ∈ pairList ts rs) : p.1 ∈ ts ∧ p.2 ∈ rs := by
  unfold pairList at h
  rw [List.mem_flatMap] at h
  obtain ⟨t, ht, hp⟩ := h
  rw [List.mem_map] at hp
  obtain ⟨r, hr, hpr⟩ := hp
  rw [← hpr]
  exact ⟨ht, hr⟩

theorem previewGo_fst {τ ρ ε : Type} (outcome : τ → ρ → Except Str ε) :
    ∀ (ps : List (τ × ρ)) (acc : List ε),
      (previewGo outcome ps acc).1
        = acc.reverse
          ++ (ps.takeWhile fun p => (outcome p.1 p.2).isOk).filterMap
              (fun p => (outcome p.1 p.2).toOption) := by
  intro ps
  induction ps with
  | nil => intro acc; simp [previewGo]
  | cons p ps ih =>
    intro acc
    cases ho : outcome p.1 p.2 with
    | ok e =>
      have h1 : (previewGo outcome (p :: ps) acc) = previewGo outcome ps (e :: acc) := by
        simp [previewGo, ho]
      rw [h1, ih (e :: acc)]
      rw [List.takeWhile_cons]
      simp [ho, Except.isOk, Except.toBool, Except.toOption, List.filterMap_cons]
    | error m =>
      have h1 : (previewGo outcome (p :: ps) acc) = (acc.reverse, some m) := by
        simp [previewGo, ho]
      rw [h1, List.takeWhile_cons]
      simp [ho, Except.isOk, Except.toBool]

theorem previewGo_allOk {τ ρ ε : Type} (outcome : τ → ρ → Except Str ε) :
    ∀ (ps : List (τ × ρ)) (acc : List ε),
      (∀ p ∈ ps, (outcome p.1 p.2).isOk = true) →
      (previewGo outcome ps acc).1.length = acc.length + ps.length := by
  intro ps
  induction ps with
  | nil => intro acc _; simp [previewGo]
  | cons p ps ih =>
    intro acc h
    cases ho : outcome p.1 p.2 with
    | ok e =>
      have h1 : (previewGo outcome (p :: ps) acc) = previewGo outcome ps (e :: acc) := by
        simp [previewGo, ho]
      rw [h1, ih (e :: acc) (fun q hq => h q (by simp [hq]))]
      simp only [List.length_cons]
      omega
    | error m =>
      exact absurd (h p (by simp)) (by simp [ho, Except.isOk, Except.toBool])

theorem downloadGo_allOk {τ ρ ε : Type} (outcome : τ → ρ → Except Str ε) :
    ∀ (ps : List (τ × ρ)) (acc : List ε),
      (∀ p ∈ ps, (outcome p.1 p.2).isOk = true) →
      ∃ l, downloadGo outcome ps acc = Except.ok l
        ∧ l.length = acc.length + ps.length := by
  intro ps
  induction ps with
  | nil => intro acc _; exact ⟨acc.reverse, rfl, by simp⟩
  | cons p ps ih =>
    intro acc h
    cases ho : outcome p.1 p.2 with
    | ok e =>
      obtain ⟨l, hl, hlen⟩ := ih (e :: acc) (fun q hq => h q (by simp [hq]))
      refine ⟨l, ?_, by simp only [List.length_cons] at hlen ⊢; omega⟩
      simp [downloadGo, ho]
      exact hl
    | error m =>
      exact absurd (h p (by simp)) (by simp [ho, Except.isOk, Except.toBool])

theorem downloadGo_err {τ ρ ε : Type} (outcome : τ → ρ → Except Str ε) :
    ∀ (ps : List (τ × ρ)) (acc : List ε),
      (∃ p ∈ ps, (outcome p.1 p.2).isOk = false) →
      ∃ m, downloadGo outcome ps acc = Except.error m := by
  intro ps
  induction ps with
  | nil => intro acc h; obtain ⟨p, hp, _⟩ := h; exact absurd hp (by simp)
  | cons p ps ih =>
    intro acc h
    cases ho : outcome p.1 p.2 with
    | ok e =>
      obtain ⟨q, hq, hfail⟩ := h
      rcases List.mem_cons.mp hq with h' | h'
      · subst h'
        rw [ho] at hfail
        exact absurd hfail (by simp [Except.isOk, Except.toBool])
      · obtain ⟨m, hm⟩ := ih (e :: acc) ⟨q, h', hfail⟩
        refine ⟨m, ?_⟩
        simp [downloadGo, ho]
        exact hm
    | error m =>
      refine ⟨m, ?_⟩
      simp [downloadGo, ho]

theorem waitFrom_le (appeared : Nat → Bool) :
    ∀ (fuel w : Nat), waitFrom appeared fuel w ≤ w + fuel := by
  intro fuel
  induction fuel with
  | zero => intro w; simp [waitFrom]
  | succ fuel ih =>
    intro w
    unfold waitFrom
    split
    · omega
    · have := ih (w + 1)
      omega

/- ### Claim theorems -/

/--
Claim C1, counterexample: with one template and two selected records where
only the first pair fails, the preview run produces zero artifacts and the
package run an empty archive — not one artifact as the claim requires; the
second pair's artifact is lost because the exception handler wraps the whole
loop, not the pair.
-/
theorem batch_failure_cex :
    (previewDocuments [0] [0, 1]
        (fun _ r => if r = 0 then Except.error ['b'] else Except.ok (7 : Nat))).1 = [] ∧
    downloadDocuments [0] [0, 1]
        (fun _ r => if r = 0 then Except.error ['b'] else Except.ok (7 : Nat)) = [] ∧
    ([] : List Nat).length ≠ 1 * 2 - 1 := by
  decide

/--
Claim C1, amended: a pair failure is caught by the run-wide handler, not at
the pair boundary.  The preview deliverable keeps exactly the artifacts of
the pairs that preceded the first failing pair and nothing after it, and the
package run discards the whole archive and returns an empty deliverable.
-/
theorem batch_abort_semantics {τ ρ ε : Type} (templates : List τ) (rows : List ρ)
    (outcome : τ → ρ → Except Str ε)
    (h : ∃ p ∈ pairList templates rows, (outcome p.1 p.2).isOk = false) :
    downloadDocuments templates rows outcome = [] ∧
    (previewDocuments templates rows outcome).1
      = ((pairList templates rows).takeWhile fun p => (outcome p.1 p.2).isOk).filterMap
          (fun p => (outcome p.1 p.2).toOption) := by
  have hrows : rows ≠ [] := by
    intro hr
    subst hr
    obtain ⟨p, hp, _⟩ := h
    rw [pairList_nil_rows] at hp
    exact absurd hp (by simp)
  have hempty : rows.isEmpty = false := by
    cases rows with
    | nil => exact absurd rfl hrows
    | cons r rs => rfl
  constructor
  · unfold downloadDocuments
    rw [hempty]
    obtain ⟨m, hm⟩ := downloadGo_err outcome (pairList templates rows) [] h
    simp [hm]
  · unfold previewDocuments
    rw [hempty]
    simp only [Bool.false_eq_true, if_false]
    rw [previewGo_fst outcome (pairList templates rows) []]
    simp

/-- Witness for the amended Claim C1 theorem at a concrete failing run. -/
theorem batch_abort_semantics_witness :
    downloadDocuments [0] [0, 1]
        (fun _ r => if r = 1 then Except.error ['e'] else Except.ok (5 : Nat)) = [] ∧
    (previewDocuments [0] [0, 1]
        (fun _ r => if r = 1 then Except.error ['e'] else Except.ok (5 : Nat))).1
      = ((pairList [0] [0, 1]).takeWhile fun p =>
            (((fun (_ : Nat) (r : Nat) =>
                if r = 1 then Except.error ['e'] else Except.ok (5 : Nat)) p.1 p.2)).isOk).filterMap
          (fun p => (((fun (_ : Nat) (r : Nat) =>
              if r = 1 then Except.error ['e'] else Except.ok (5 : Nat)) p.1 p.2)).toOption) :=
  batch_abort_semantics [0] [0, 1]
    (fun _ r => if r = 1 then Except.error ['e'] else Except.ok (5 : Nat))
    (by decide)

set_option maxRecDepth 4000 in
/--
Claim C2, counterexample: with the default timeout (60 time units, modelled
as 120 half-second steps), a conversion process that runs for 119 half-units
and exits 0 without the PDF ever appearing spends 119 + 120 = 239 half-units
in total — the poll phase receives its own fresh budget, so the combined
time is not bounded by the single configured timeout.
-/
theorem conversion_timeout_cex :
    (convertToPdf (2 * defaultConversionTimeout) 119 true none).2 = 239 ∧
    ¬ ((convertToPdf (2 * defaultConversionTimeout) 119 true none).2
        ≤ 2 * defaultConversionTimeout) := by
  decide

/--
Claim C2, amended: the process phase and the existence-poll phase are each
separately bounded by the configured timeout, so the whole conversion is
bounded by twice the configured timeout, not by the timeout once.
-/
theorem conversion_elapsed_bound (timeoutH procH : Nat) (exit0 : Bool)
    (appear : Option Nat) :
    (convertToPdf timeoutH procH exit0 appear).2 ≤ 2 * timeoutH := by
  unfold convertToPdf
  by_cases h1 : timeoutH < procH
  · rw [if_pos h1]
    simp
    omega
  · rw [if_neg h1]
    by_cases h2 : exit0 = false
    · rw [if_pos h2]
      simp
      omega
    · rw [if_neg h2]
      have hw := waitFrom_le (fileAppearedAt appear) timeoutH 0
      by_cases h3 : fileAppearedAt appear (waitFrom (fileAppearedAt appear) timeoutH 0) = true
      · rw [if_pos h3]
        simp
        omega
      · rw [if_neg h3]
        simp
        omega

/--
Claim C3, counterexample: the labels a, a, a_1 sanitize to a, a_1, a_1 —
the suffixed name produced for the second a collides with the sanitized
name of the third label, because suffixed names are never recorded in the
seen dictionary, so the output is not globally unique.
-/
theorem sanitizer_unique_cex :
    validColumns [['a'], ['a'], ['a', '_', '1']]
      = some [['a'], ['a', '_', '1'], ['a', '_', '1']] ∧
    ¬ ([['a'], ['a', '_', '1'], ['a', '_', '1']] : List Str).Nodup := by
  decide

/--
Claim C3, amended: for label sequences in which every label strips to a
nonempty string, the sanitizer succeeds and returns a same-length, in-order
sequence of nonempty names made of identifier characters, each starting with
a letter or underscore, where the k-th repeat of an identical sanitized base
gets the numeric suffix `_k` and the first occurrence keeps the bare name —
but the resulting names are not guaranteed globally unique.
-/
theorem sanitizer_contract (cols : List Str)
    (h : ∀ col ∈ cols, pyStrip col ≠ []) :
    ∃ out, validColumns cols = some out ∧
      out.length = cols.length ∧
      (∀ name ∈ out, name ≠ [] ∧ (∀ c ∈ name, isIdentChar c = true) ∧
        isIdentHead (name.headD ' ') = true) ∧
      out = sanListSpec [] (basesOf cols) := by
  refine ⟨sanListSpec [] (basesOf cols), validColumns_eq_spec cols h, ?_, ?_, rfl⟩
  · rw [sanListSpec_length]
    unfold basesOf
    exact List.length_map _ _
  · intro name hname
    have hbase : ∀ b ∈ basesOf cols, b ≠ [] ∧ (∀ c ∈ b, isIdentChar c = true) ∧
        isIdentHead (b.headD ' ') = true := by
      intro b hb
      unfold basesOf at hb
      rw [List.mem_map] at hb
      obtain ⟨col, hcol, hbcol⟩ := hb
      obtain ⟨b', hb'⟩ := sanitizeBase_isSome col (h col hcol)
      rw [hb', Option.getD_some] at hbcol
      subst hbcol
      exact sanitizeBase_props col b' hb'
    rcases sanListSpec_shape (basesOf cols) [] name hname with hm | hm
    · exact hbase name hm
    · obtain ⟨b, k, hb, hnk⟩ := hm
      obtain ⟨hb1, hb2, hb3⟩ := hbase b hb
      rw [hnk]
      exact suffixedName_props b hb1 hb2 hb3 k

/-- Witness for the amended Claim C3 theorem at the spec's concrete scenario. -/
theorem sanitizer_contract_witness :
    (∀ col ∈ ["Customer Name".toList, "2023 Revenue".toList,
        "Customer Name".toList], pyStrip col ≠ []) ∧
    (∃ out, validColumns ["Customer Name".toList, "2023 Revenue".toList,
        "Customer Name".toList] = some out ∧
      out.length = (["Customer Name".toList, "2023 Revenue".toList,
        "Customer Name".toList] : List Str).length ∧
      (∀ name ∈ out, name ≠ [] ∧ (∀ c ∈ name, isIdentChar c = true) ∧
        isIdentHead (name.headD ' ') = true) ∧
      out = sanListSpec [] (basesOf ["Customer Name".toList, "2023 Revenue".toList,
        "Customer Name".toList])) :=
  ⟨by decide, sanitizer_contract _ (by decide)⟩

/--
Claim C4, counterexample: for the empty pattern, empty record and the
extension consisting of the single character at-sign, the templater returns
the empty string — the appended extension is erased by the cleanup pass, so
the result is neither nonempty nor does it end in the requested extension.
-/
theorem filename_total_cex :
    getOutputFilename [] [] ['@'] = [] ∧
    (['@'].isSuffixOf (getOutputFilename [] [] ['@'])) = false := by
  decide

/--
Claim C4, amended: the templater never raises (its whole body is total and
the except fallback is dead code), and for every pattern and record and
every nonempty extension made only of filename-safe characters the result
is nonempty and ends in the extension; the fallback itself, were it ever
reached, raises on an empty record instead of producing a placeholder name
(modelled by `fallbackRowName [] ext = none`).
-/
theorem filename_safe_ext (pat : Str) (rec : List (Str × Str)) (ext : Str)
    (hext : ∀ c ∈ ext, allowedChar c = true) (hne : ext ≠ []) :
    ext <:+ getOutputFilename pat rec ext ∧
    getOutputFilename pat rec ext ≠ [] ∧
    fallbackRowName [] ext = none := by
  have hsub : ∀ s : Str, ext <:+ cleanName (withExt s ext) := by
    intro s
    unfold withExt
    cases hsf : ext.isSuffixOf s
    · simp only [Bool.false_eq_true, if_false]
      rw [cleanName_append, cleanName_of_allowed ext hext]
      exact List.suffix_append _ _
    · simp only [if_true]
      rw [List.isSuffixOf_iff_suffix] at hsf
      obtain ⟨a, ha⟩ := hsf
      rw [← ha, cleanName_append, cleanName_of_allowed ext hext]
      exact List.suffix_append _ _
  refine ⟨hsub _, ?_, rfl⟩
  intro hnil
  have h2 : ext <:+ getOutputFilename pat rec ext := hsub _
  rw [hnil] at h2
  exact hne (List.suffix_nil.mp h2)

/-- Witness for the amended Claim C4 theorem at a concrete input. -/
theorem filename_safe_ext_witness :
    ".docx".toList <:+ getOutputFilename "report".toList [] ".docx".toList ∧
    getOutputFilename "report".toList [] ".docx".toList ≠ [] ∧
    fallbackRowName [] ".docx".toList = none :=
  filename_safe_ext "report".toList [] ".docx".toList (by decide) (by decide)

/--
Claim C5, counterexample: the pattern a-brace-brace-x-brace-brace (no spaces
inside the braces), with the record mapping x to B and extension .d, is NOT
substituted — the code only matches the token with exactly one space on each
side of the key, so the value B never appears; the braces are then stripped
by the cleanup pass, yielding ax.d instead of the whitespace-tolerant aB.d.
-/
theorem filename_subst_cex :
    getOutputFilename ('a' :: '{' :: '{' :: 'x' :: '}' :: '}' :: [])
        [(['x'], ['B'])] ('.' :: 'd' :: [])
      = ('a' :: 'x' :: '.' :: 'd' :: []) ∧
    ('a' :: 'x' :: '.' :: 'd' :: []) ≠ ('a' :: 'B' :: '.' :: 'd' :: []) := by
  decide

/--
Claim C5, amended: substitution matches only the exact single-space form of
the double-brace token.  For a pattern made of brace-free literals and
placeholders written exactly in that form, with brace-free and space-free
keys all present in the record and brace-free values, every placeholder is
replaced by its value, the substituted string is brace-free (no tokens
remain), literal text is preserved verbatim in order, and the cleanup pass
is applied last, after substitution and extension appending.
-/
theorem filename_subst_exact (segs : List Seg) (rec : List (Str × Str)) (ext : Str)
    (hcov : ∀ k ∈ phKeys segs, k ∈ rec.map Prod.fst)
    (hsegs : segsOK segs)
    (hrec : ∀ kv ∈ rec, keyOK kv.1 ∧ braceFree kv.2) :
    getOutputFilename (renderSegs segs) rec ext
      = cleanName (withExt (renderSegs (applyRecord segs rec)) ext) ∧
    allLit (applyRecord segs rec) ∧
    braceFree (renderSegs (applyRecord segs rec)) := by
  have hal := applyRecord_allLit segs rec hcov
  refine ⟨?_, hal, ?_⟩
  · unfold getOutputFilename
    rw [foldl_pyReplace_renderSegs rec segs hsegs hrec]
  · exact renderSegs_braceFree _ hal ((segsOK_applyRecord segs rec hsegs hrec).1)

/-- Witness for the amended Claim C5 theorem at the spec's concrete scenario. -/
theorem filename_subst_exact_witness :
    getOutputFilename
        (renderSegs [Seg.lit "invoice_".toList, Seg.ph "Customer_Name".toList])
        [("Customer_Name".toList, "Acme Co".toList)] ".docx".toList
      = cleanName (withExt
          (renderSegs (applyRecord
            [Seg.lit "invoice_".toList, Seg.ph "Customer_Name".toList]
            [("Customer_Name".toList, "Acme Co".toList)])) ".docx".toList) ∧
    allLit (applyRecord [Seg.lit "invoice_".toList, Seg.ph "Customer_Name".toList]
        [("Customer_Name".toList, "Acme Co".toList)]) ∧
    braceFree (renderSegs (applyRecord
        [Seg.lit "invoice_".toList, Seg.ph "Customer_Name".toList]
        [("Customer_Name".toList, "Acme Co".toList)])) :=
  filename_subst_exact
    [Seg.lit "invoice_".toList, Seg.ph "Customer_Name".toList]
    [("Customer_Name".toList, "Acme Co".toList)] ".docx".toList
    (by decide) (by decide) (by decide)

/--
Claim C6, counterexample: when the new blob parses but column processing
crashes (a whitespace-only column label), the previously loaded dataset has
already been overwritten by the new, partially processed frame — the load
neither fully replaces the dataset nor leaves the prior state intact.
-/
theorem load_mutation_cex :
    onExcelUpload (some { cols := [['a']], rows := [[PyValue.int 1]] })
        (some { cols := [[' ']], rows := [] })
      = (some { cols := [[]], rows := [] }, false) ∧
    (some ({ cols := [[]], rows := [] } : Frame)
      ≠ some ({ cols := [['a']], rows := [[PyValue.int 1]] } : Frame)) := by
  decide

/--
Claim C6, amended: when parsing the blob itself fails the previous dataset
is left unchanged, but when column processing fails after a successful
parse, the stored dataset has already been replaced by the new frame with
stripped column names, losing the prior state.
-/
theorem load_failure_states (prev : Option Frame) (df : Frame)
    (h : validColumns (stripFrameCols df).cols = none) :
    onExcelUpload prev none = (prev, false) ∧
    onExcelUpload prev (some df) = (some (stripFrameCols df), false) := by
  constructor
  · rfl
  · simp [onExcelUpload, h]

/-- Witness for the amended Claim C6 theorem at a concrete crashing frame. -/
theorem load_failure_states_witness :
    onExcelUpload none none = (none, false) ∧
    onExcelUpload none (some { cols := [[' ']], rows := [] })
      = (some (stripFrameCols { cols := [[' ']], rows := [] }), false) :=
  load_failure_states none { cols := [[' ']], rows := [] } (by decide)

/--
Claim C7: when every (template, record) pair succeeds, the package archive
and the preview list each contain exactly one entry per pair, that is,
templates times selected records many entries.
-/
theorem batch_counts {τ ρ ε : Type} (templates : List τ) (rows : List ρ)
    (outcome : τ → ρ → Except Str ε)
    (h : ∀ t ∈ templates, ∀ r ∈ rows, (outcome t r).isOk = true) :
    (downloadDocuments templates rows outcome).length
        = templates.length * rows.length ∧
    (previewDocuments templates rows outcome).1.length
        = templates.length * rows.length := by
  have hps : ∀ p ∈ pairList templates rows, (outcome p.1 p.2).isOk = true := by
    intro p hp
    obtain ⟨h1, h2⟩ := mem_pairList templates rows p hp
    exact h p.1 h1 p.2 h2
  by_cases hr : rows.isEmpty
  · have : rows = [] := by
      cases rows with
      | nil => rfl
      | cons x xs => exact absurd hr (by simp)
    subst this
    constructor
    · simp [downloadDocuments]
    · simp [previewDocuments]
  · have hrf : rows.isEmpty = false := by
      cases hx : rows.isEmpty
      · rfl
      · exact absurd hx hr
    constructor
    · unfold downloadDocuments
      rw [hrf]
      obtain ⟨l, hl, hlen⟩ := downloadGo_allOk outcome (pairList templates rows) [] hps
      simp only [Bool.false_eq_true, if_false, hl]
      rw [hlen, length_pairList]
      simp
    · unfold previewDocuments
      rw [hrf]
      simp only [Bool.false_eq_true, if_false]
      rw [previewGo_allOk outcome (pairList templates rows) [] hps, length_pairList]
      simp

/-- Witness for the Claim C7 theorem at a concrete all-success run. -/
theorem batch_counts_witness :
    (downloadDocuments [0, 1] [5, 6, 7]
        (fun t r => Except.ok (t + r : Nat))).length
      = ([0, 1] : List Nat).length * ([5, 6, 7] : List Nat).length ∧
    (previewDocuments [0, 1] [5, 6, 7]
        (fun t r => Except.ok (t + r : Nat))).1.length
      = ([0, 1] : List Nat).length * ([5, 6, 7] : List Nat).length :=
  batch_counts [0, 1] [5, 6, 7] (fun t r => Except.ok (t + r : Nat))
    (by decide)

/--
Claim C8: the record normalizer preserves the keys in order and maps every
value to its display string when present and to the empty string when
missing (never the literal text null or nan, since the empty string is
produced); it is a total Lean function, hence always succeeds.
-/
theorem normalizeRow_spec (row : List (Str × PyValue)) :
    List.Forall₂ (fun p q => q.1 = p.1 ∧
      q.2 = if pdNotna p.2 = true then pyStr p.2 else []) row (normalizeRow row) := by
  induction row with
  | nil => exact List.Forall₂.nil
  | cons p row ih => exact List.Forall₂.cons ⟨rfl, rfl⟩ ih

/--
Claim C9, counterexample: the labels b, b, b_1 sanitize to b, b_1, b_1,
which is a sanitizer output; sanitizing that output again yields
b, b_1, b_1_1, so sanitizing is not idempotent on sanitizer outputs.
-/
theorem sanitizer_idem_cex :
    validColumns [['b'], ['b'], ['b', '_', '1']]
      = some [['b'], ['b', '_', '1'], ['b', '_', '1']] ∧
    validColumns [['b'], ['b', '_', '1'], ['b', '_', '1']]
      ≠ some [['b'], ['b', '_', '1'], ['b', '_', '1']] := by
  decide

/--
Claim C9, amended: the sanitizer is the identity — hence idempotent — on
every sequence of pairwise-distinct names that satisfy the output contract
(nonempty, made of identifier characters, starting with a letter or
underscore); it is not idempotent on all actual sanitizer outputs, because
those can contain duplicates.
-/
theorem sanitizer_idempotent (cols : List Str)
    (h1 : ∀ name ∈ cols, name ≠ [] ∧ (∀ c ∈ name, isIdentChar c = true) ∧
      isIdentHead (name.headD ' ') = true)
    (h2 : cols.Nodup) :
    validColumns cols = some cols := by
  have hfix : ∀ col ∈ cols, sanitizeBase col = some col := by
    intro col hcol
    obtain ⟨ha, hb, hc⟩ := h1 col hcol
    exact sanitizeBase_fixed col ha hb hc
  have hbases : basesOf cols = cols := by
    unfold basesOf
    rw [List.map_congr_left (fun col hcol => by rw [hfix col hcol])]
    exact List.map_id _
  have hstrip : ∀ col ∈ cols, pyStrip col ≠ [] := by
    intro col hcol
    obtain ⟨ha, hb, _⟩ := h1 col hcol
    rw [pyStrip_eq_self col (fun c hc => identChar_not_ws c (hb c hc))]
    exact ha
  rw [validColumns_eq_spec cols hstrip, hbases,
    sanListSpec_of_disjoint cols [] (by simp) h2]

/-- Witness for the amended Claim C9 theorem at a concrete valid sequence. -/
theorem sanitizer_idempotent_witness :
    validColumns [['a', 'b'], ['c']] = some [['a', 'b'], ['c']] :=
  sanitizer_idempotent [['a', 'b'], ['c']] (by decide) (by decide)

/--
Claim C10: a whitespace-only column label strips to the empty string, so
indexing its first character raises and the sanitizer aborts (modelled by
`validColumns` returning `none`); the whole dataset load then fails instead
of producing a deterministic fallback name, leaving the stripped frame in
place with the success flag false.
-/
theorem sanitizer_empty_label_crash :
    validColumns [[' ', ' '], ['a']] = none ∧
    onExcelUpload (some { cols := [['x']], rows := [[PyValue.int 1]] })
        (some { cols := [[' ', ' '], ['a']], rows := [] })
      = (some { cols := [[], ['a']], rows := [] }, false) := by
  decide

end DocGen
